import Mathlib

/-!
Shallow embedding of the Network-Protocol-Validator repository.

The FSM-based Cisco configuration validator lives in `pkg/automata`
(`NewFSM`, `ProcessLine`, `findStateTrigger`, `addError`), the driver in
`pkg/config` (`ParseFile`) and the report assembly in `pkg/validation`
(`GenerateReport`).  Go strings are modelled as `List Char`; compiled
regular expressions (`*regexp.Regexp` used only through `MatchString`)
are modelled extensionally as boolean matchers on the trimmed line.
-/

namespace NPV

/-- A compiled rule pattern: the Go code only ever calls
`rule.MatchString(trimmedLine)`, so a compiled pattern is modelled by its
matching function. -/
def Pattern : Type := List Char → Bool

/-- `unicode.IsSpace` for the code points that can appear in a Go string,
as used by `strings.TrimSpace`.  Listed: `\t \n \v \f \r`, space, NEL,
NBSP and the Unicode `White_Space` code points above Latin-1. -/
def isUnicodeSpace (c : Char) : Bool :=
  c = ' ' || c = '\t' || c = '\n' || c = '\x0b' || c = '\x0c' || c = '\r' ||
  c = '\x85' || c = '\xa0' || c = '\u1680' ||
  (('\u2000' : Char) ≤ c && c ≤ ('\u200a' : Char)) ||
  c = '\u2028' || c = '\u2029' || c = '\u202f' || c = '\u205f' || c = '\u3000'

/-- `strings.TrimSpace`: drop leading and trailing Unicode whitespace. -/
def trimSpace (s : List Char) : List Char :=
  ((s.dropWhile isUnicodeSpace).reverse.dropWhile isUnicodeSpace).reverse

/-- RE2 `\s`, i.e. the character class `[\t\n\f\r ]`, used by the trigger
patterns' `\s+`. -/
def isRESpace (c : Char) : Bool :=
  c = '\t' || c = '\n' || c = '\x0c' || c = '\r' || c = ' '

/-- Strip a literal word from the front of a string; `some rest` on
success.  Used to embed anchored literal regex fragments. -/
def stripLit : List Char → List Char → Option (List Char)
  | [], s => some s
  | _ :: _, [] => none
  | c :: w, d :: s => if c = d then stripLit w s else none

/-- Shape of a trigger pattern from `findStateTrigger`'s table.  Every
pattern there is start-anchored (`^`), so `regexp.MatchString` reduces to
a prefix match:
* `words [w1, …, wk]` embeds `^w1\s+w2\s+…\s+wk\s+.*`;
* `exact w` embeds `^w$` (here only `^archive$`);
* `wordNum w` embeds `^w\s+[0-9]+` (here only `^vlan\s+[0-9]+`). -/
inductive TrigForm where
  | words (ws : List (List Char)) : TrigForm
  | exact (w : List Char) : TrigForm
  | wordNum (w : List Char) : TrigForm
deriving DecidableEq

/-- Matcher for `w1\s+w2\s+…\s+wk\s+.*` applied as a prefix of `s`.
Each literal word is followed by at least one `\s` character; because no
word starts with a `\s` character and `[0-9]+`/`.*` cannot begin inside a
`\s` run that a following literal must end, the greedy consumption of the
whitespace run is equivalent to the regex's backtracking search. -/
def chainWords : List (List Char) → List Char → Bool
  | [], _ => true
  | w :: ws, s =>
    match stripLit w s with
    | none => false
    | some [] => false
    | some (c :: t) => isRESpace c && chainWords ws (t.dropWhile isRESpace)

/-- Evaluate a trigger pattern against a (trimmed) line, embedding
`regexp.MatchString(pattern, line)` for the start-anchored patterns of
`findStateTrigger`. -/
def trigMatch : TrigForm → List Char → Bool
  | .words ws, s => chainWords ws s
  | .exact w, s => s = w
  | .wordNum w, s =>
    match stripLit w s with
    | none => false
    | some [] => false
    | some (c :: t) =>
      isRESpace c &&
        (match (t.dropWhile isRESpace) with
         | [] => false
         | d :: _ => '0' ≤ d && d ≤ '9')

/-- The fixed trigger table of `findStateTrigger`, in the source order of
the Go map literal.  Each entry pairs the embedded pattern with its
target state.  In Go the table is a `map[string]string` whose iteration
order is unspecified; the list order here is one admissible order, and
order-independence is proved separately. -/
def triggers : List (TrigForm × String) :=
  [ (.words ["interface".data], "INTERFACE"),
    (.words ["aaa".data, "group".data, "server".data], "AAA_GROUP"),
    (.words ["aaa".data, "cache".data, "profile".data], "AAA_CACHE_PROFILE"),
    (.words ["dot11".data, "ssid".data], "DOT11_SSID"),
    (.exact "archive".data, "ARCHIVE_CONFIG"),
    (.words ["crypto".data, "pki".data], "CRYPTO_PKI"),
    (.words ["tacacs".data, "server".data], "SERVER_CONFIG"),
    (.words ["radius".data, "server".data], "SERVER_CONFIG"),
    (.words ["ip".data, "access-list".data, "standard".data], "IP_ACL_STANDARD"),
    (.words ["line".data], "LINE"),
    (.words ["router".data], "ROUTER"),
    (.wordNum "vlan".data, "VLAN") ]

/-- `findStateTrigger` generalised over the iteration order `ts` of the
trigger table: return the target of the first matching pattern, or `""`
when no trigger matches (`""` is the Go sentinel for "no state change"). -/
def findStateTriggerList (ts : List (TrigForm × String)) (line : List Char) : String :=
  match ts.find? (fun t => trigMatch t.1 line) with
  | some t => t.2
  | none => ""

/-- `findStateTrigger` with the table in source order. -/
def findStateTrigger (line : List Char) : String :=
  findStateTriggerList triggers line

/-- The `FSM` struct: compiled rules (a `map[string][]*regexp.Regexp`,
modelled as an association list keyed by state name), the current state,
and the accumulated error strings. -/
structure FSM where
  Rules : List (String × List Pattern)
  CurrentState : String
  Errors : List String

/-- The error message built by `addError` via
`fmt.Sprintf("Line %d: invalid command '%s' in state %s", …)`. -/
def errMsg (lineNum : Nat) (line : List Char) (state : String) : String :=
  "Line " ++ toString lineNum ++ ": invalid command \x27" ++ String.mk line ++
    "\x27 in state " ++ state

/-- `addError`: append one formatted error to `fsm.Errors`. -/
def addError (fsm : FSM) (lineNum : Nat) (line : List Char) (state : String) : FSM :=
  { fsm with Errors := fsm.Errors ++ [errMsg lineNum line state] }

/-- `ProcessLine`, generalised over the trigger-table iteration order
`ts`.  Mirrors the Go body: (1) blank/comment lines reset to GLOBAL and
return; (2) implicit exit on a non-indented line in a sub-state;
(3) trigger check on the trimmed line; (4) rule lookup and any-match
check, recording an error on a missing state key or on no match. -/
def ProcessLineWith (ts : List (TrigForm × String)) (fsm : FSM)
    (originalLine : List Char) (lineNum : Nat) : FSM :=
  let trimmedLine := trimSpace originalLine
  if trimmedLine = [] ∨ ['!'].isPrefixOf trimmedLine then
    { fsm with CurrentState := "GLOBAL" }
  else
    let fsm1 :=
      if fsm.CurrentState ≠ "GLOBAL" ∧ ¬ ([' '].isPrefixOf originalLine) then
        { fsm with CurrentState := "GLOBAL" }
      else fsm
    let newState := findStateTriggerList ts trimmedLine
    if newState ≠ "" then
      { fsm1 with CurrentState := newState }
    else
      match List.lookup fsm1.CurrentState fsm1.Rules with
      | none => addError fsm1 lineNum trimmedLine fsm1.CurrentState
      | some rulesForState =>
        if rulesForState.any (fun rule => rule trimmedLine) then fsm1
        else addError fsm1 lineNum trimmedLine fsm1.CurrentState

/-- `ProcessLine` with the trigger table in source order. -/
def ProcessLine (fsm : FSM) (originalLine : List Char) (lineNum : Nat) : FSM :=
  ProcessLineWith triggers fsm originalLine lineNum

/-- The `ParseFile` scanning loop, generalised over a per-line trigger
iteration order `ord` (Go rebuilds and re-iterates the trigger map on
every `findStateTrigger` call, so each line may see a different order):
feed each line to `ProcessLine` with 1-based line numbers, never
stopping. -/
def runLinesOrd (ord : Nat → List (TrigForm × String)) :
    FSM → List (List Char) → Nat → FSM
  | fsm, [], _ => fsm
  | fsm, l :: ls, n => runLinesOrd ord (ProcessLineWith (ord n) fsm l n) ls (n + 1)

/-- The `ParseFile` scanning loop with the canonical trigger order. -/
def runLines (fsm : FSM) (lines : List (List Char)) (n : Nat) : FSM :=
  runLinesOrd (fun _ => triggers) fsm lines n

/-- The `Report` struct assembled by `GenerateReport` (its subsequent
JSON serialisation and file write are plumbing outside the core). -/
structure Report where
  Status : String
  Errors : List String

/-- `GenerateReport`'s report assembly: status `"success"` when
`len(fsm.Errors) == 0`, else `"failed"`, carrying `fsm.Errors`. -/
def GenerateReport (fsm : FSM) : Report :=
  { Status := if fsm.Errors.length = 0 then "success" else "failed",
    Errors := fsm.Errors }

/-- The error text of `NewFSM`'s
`fmt.Errorf("failed to compile regex '%s' for state '%s': %v", …)`. -/
def compileErrMsg (pattern state cause : String) : String :=
  "failed to compile regex \x27" ++ pattern ++ "\x27 for state \x27" ++ state ++
    "\x27: " ++ cause

/-- Inner loop of `NewFSM` over one state's pattern list: compile each
pattern with the (abstract, library-provided) compiler `c`, failing with
`compileErrMsg` on the first pattern that does not compile. -/
def compilePatterns (c : String → Except String Pattern) (state : String) :
    List String → Except String (List Pattern)
  | [] => .ok []
  | p :: ps =>
    match c p with
    | .error e => .error (compileErrMsg p state e)
    | .ok r =>
      match compilePatterns c state ps with
      | .error e => .error e
      | .ok rs => .ok (r :: rs)

/-- Outer loop of `NewFSM` over the raw rule map (modelled as an
association list in one admissible iteration order).  A state whose
pattern list is empty gets no key in the compiled map, exactly as Go's
`append`-into-`nil`-map-entry never creates the key. -/
def compileRules (c : String → Except String Pattern) :
    List (String × List String) → Except String (List (String × List Pattern))
  | [] => .ok []
  | (s, ps) :: rest =>
    match compilePatterns c s ps with
    | .error e => .error e
    | .ok [] => compileRules c rest
    | .ok cps =>
      match compileRules c rest with
      | .error e => .error e
      | .ok m => .ok ((s, cps) :: m)

/-- `NewFSM`: compile every rule pattern (all-or-nothing) and start in
state GLOBAL with no errors. -/
def NewFSM (c : String → Except String Pattern)
    (rawRules : List (String × List String)) : Except String FSM :=
  match compileRules c rawRules with
  | .error e => .error e
  | .ok compiledRules => .ok ⟨compiledRules, "GLOBAL", []⟩

/-- First literal word of a trigger pattern (the part of the regex before
the first `\s+`, `$` or `[0-9]+`). -/
def TrigForm.firstWord : TrigForm → List Char
  | .words [] => []
  | .words (w :: _) => w
  | .exact w => w
  | .wordNum w => w

theorem stripLit_append {w s t : List Char} (h : stripLit w s = some t) :
    s = w ++ t := by
  induction w generalizing s with
  | nil => simp [stripLit] at h; simp [h]
  | cons c w ih =>
    cases s with
    | nil => simp [stripLit] at h
    | cons d s' =>
      simp only [stripLit] at h
      split at h
      · next heq => subst heq; simpa using ih h
      · exact absurd h (by simp)

theorem stripLit_pfx {w s t : List Char} (h : stripLit w s = some t) :
    w <+: s :=
  ⟨t, (stripLit_append h).symm⟩

theorem chainWords_first {w : List Char} {ws : List (List Char)} {s : List Char}
    (h : chainWords (w :: ws) s = true) : w <+: s := by
  simp only [chainWords] at h
  rcases hs : stripLit w s with _ | t
  · rw [hs] at h; exact absurd h (by simp)
  · exact stripLit_pfx hs

theorem trigMatch_firstWord {f : TrigForm} {s : List Char}
    (h : trigMatch f s = true) : f.firstWord <+: s := by
  cases f with
  | words ws =>
    cases ws with
    | nil => exact List.nil_prefix
    | cons w ws => exact chainWords_first h
  | exact w =>
    simp only [trigMatch, decide_eq_true_eq] at h
    exact h ▸ List.prefix_refl w
  | wordNum w =>
    simp only [trigMatch] at h
    rcases hs : stripLit w s with _ | t
    · rw [hs] at h; exact absurd h (by simp)
    · exact stripLit_pfx hs

/-- Two trigger patterns whose first literal words are not prefixes of one
another can never match the same line. -/
theorem trigMatch_excl {f1 f2 : TrigForm} {s : List Char}
    (h : (f1.firstWord.isPrefixOf f2.firstWord ||
          f2.firstWord.isPrefixOf f1.firstWord) = false)
    (m1 : trigMatch f1 s = true) (m2 : trigMatch f2 s = true) : False := by
  rcases List.prefix_or_prefix_of_prefix (trigMatch_firstWord m1)
      (trigMatch_firstWord m2) with hp | hp
  · rw [Bool.or_eq_false_iff] at h
    exact absurd (List.isPrefixOf_iff_prefix.mpr hp) (by simp [h.1])
  · rw [Bool.or_eq_false_iff] at h
    exact absurd (List.isPrefixOf_iff_prefix.mpr hp) (by simp [h.2])

/-- The two `aaa …` trigger patterns are mutually exclusive: after the
common first word they require the distinct literals `group` and
`cache`. -/
theorem aaa_excl {s : List Char}
    (m1 : trigMatch (.words ["aaa".data, "group".data, "server".data]) s = true)
    (m2 : trigMatch (.words ["aaa".data, "cache".data, "profile".data]) s = true) :
    False := by
  simp only [trigMatch, chainWords] at m1 m2
  rcases hs : stripLit "aaa".data s with _ | t
  · rw [hs] at m1; exact absurd m1 (by simp)
  · rw [hs] at m1 m2
    cases t with
    | nil => exact absurd m1 (by simp)
    | cons c t' =>
      simp only [Bool.and_eq_true] at m1 m2
      obtain ⟨-, m1⟩ := m1
      obtain ⟨-, m2⟩ := m2
      rcases hg : stripLit "group".data (t'.dropWhile isRESpace) with _ | u1
      · rw [hg] at m1; exact absurd m1 (by simp)
      rcases hc : stripLit "cache".data (t'.dropWhile isRESpace) with _ | u2
      · rw [hc] at m2; exact absurd m2 (by simp)
      rcases List.prefix_or_prefix_of_prefix (stripLit_pfx hg)
          (stripLit_pfx hc) with hp | hp <;> revert hp <;> decide

/-- Trigger coherence: any two trigger-table entries that match the same
line name the same target state (in the source the two `… server …`
patterns share the target `SERVER_CONFIG`, and all other patterns are
pairwise exclusive). -/
theorem triggerCoherent :
    ∀ t1 ∈ triggers, ∀ t2 ∈ triggers, ∀ s : List Char,
      trigMatch t1.1 s = true → trigMatch t2.1 s = true → t1.2 = t2.2 := by
  intro t1 h1 t2 h2 s m1 m2
  fin_cases h1 <;> fin_cases h2 <;>
    first
      | rfl
      | exact (trigMatch_excl (by decide) m1 m2).elim
      | exact (aaa_excl m1 m2).elim
      | exact (aaa_excl m2 m1).elim

/-- The result of the trigger search does not depend on which iteration
order of the Go trigger map was observed. -/
theorem findStateTriggerList_perm {ts : List (TrigForm × String)}
    (h : ts.Perm triggers) (s : List Char) :
    findStateTriggerList ts s = findStateTriggerList triggers s := by
  unfold findStateTriggerList
  rcases h1 : ts.find? (fun t => trigMatch t.1 s) with _ | t
  · have h2 : triggers.find? (fun t => trigMatch t.1 s) = none := by
      rw [List.find?_eq_none] at h1 ⊢
      exact fun x hx => h1 x (h.mem_iff.mpr hx)
    rw [h1, h2]
  · rcases h2 : triggers.find? (fun t => trigMatch t.1 s) with _ | t'
    · rw [List.find?_eq_none] at h2
      have h3 := h2 t (h.subset (List.mem_of_find?_eq_some h1))
      have h4 := List.find?_some h1
      simp only at h3 h4
      exact absurd h4 h3
    · rw [h1, h2]
      have h3 := List.find?_some h1
      have h4 := List.find?_some h2
      simp only at h3 h4
      exact triggerCoherent t (h.subset (List.mem_of_find?_eq_some h1)) t'
        (List.mem_of_find?_eq_some h2) s h3 h4

/-- `ProcessLine` is insensitive to the trigger-map iteration order. -/
theorem ProcessLineWith_perm {ts : List (TrigForm × String)}
    (h : ts.Perm triggers) (fsm : FSM) (l : List Char) (n : Nat) :
    ProcessLineWith ts fsm l n = ProcessLine fsm l n := by
  unfold ProcessLine ProcessLineWith
  simp only [findStateTriggerList_perm h]

/-- The whole run is insensitive to the trigger-map iteration orders
observed at the individual lines. -/
theorem runLinesOrd_perm {ord1 ord2 : Nat → List (TrigForm × String)}
    (h1 : ∀ n, (ord1 n).Perm triggers) (h2 : ∀ n, (ord2 n).Perm triggers)
    (fsm : FSM) (lines : List (List Char)) (n : Nat) :
    runLinesOrd ord1 fsm lines n = runLinesOrd ord2 fsm lines n := by
  induction lines generalizing fsm n with
  | nil => rfl
  | cons l ls ih =>
    simp only [runLinesOrd]
    rw [ProcessLineWith_perm (h1 n), ← ProcessLineWith_perm (h2 n)]
    exact ih _ _

/-! ### C1: the concrete three-line scenario -/

/-- The compiled rule `^ ip address .*` as used by
`rule.MatchString(trimmedLine)`: the pattern is start-anchored, so it
matches exactly the strings that begin with the literal ` ip address `
(the trailing `.*` may match the empty string and `.` excludes only
newlines, which cannot extend a completed match requirement). -/
def ipAddressPat : Pattern := fun s => (" ip address ".data).isPrefixOf s

/-- Rule store of the C1 scenario: state `INTERFACE` with the single
pattern `^ ip address .*`. -/
def fsmC1 : FSM := ⟨[("INTERFACE", [ipAddressPat])], "GLOBAL", []⟩

/-- The three input lines of the C1 scenario (second line indented by one
space). -/
def linesC1 : List (List Char) :=
  ["interface GigabitEthernet0/1".data,
   " ip address 10.0.0.1 255.255.255.0".data,
   "end".data]

/-- C1 (counterexample): the scenario does NOT accumulate zero errors.
`ProcessLine` matches rules against the *trimmed* line, so the
leading-space pattern `^ ip address .*` never matches the trimmed
` ip address …` line, and `end` is then checked in state GLOBAL, which
the scenario's rule store lacks. -/
theorem c1_scenario_has_errors : (runLines fsmC1 linesC1 1).Errors ≠ [] := by
  have h : (runLines fsmC1 linesC1 1).Errors =
      ["Line 2: invalid command \x27ip address 10.0.0.1 255.255.255.0\x27 in state INTERFACE",
       "Line 3: invalid command \x27end\x27 in state GLOBAL"] := by rfl
  rw [h]
  simp

/-- C1 (amended): the scenario accumulates exactly two errors, one at
line 2 (the trimmed line matches no `INTERFACE` pattern) and one at
line 3 (`end` evaluated in state GLOBAL, absent from the rule store). -/
theorem c1_scenario_two_errors : (runLines fsmC1 linesC1 1).Errors =
    ["Line 2: invalid command \x27ip address 10.0.0.1 255.255.255.0\x27 in state INTERFACE",
     "Line 3: invalid command \x27end\x27 in state GLOBAL"] := by rfl

/-! ### C4: determinism of the Line Automaton -/

/-- C4: for every rule store and every input line sequence, two runs of
the Line Automaton from a fresh GLOBAL state produce identical error
sequences, even though Go's trigger map may present a different
iteration order on every `findStateTrigger` call of either run (any
per-line orders `ord1`, `ord2` that enumerate the trigger table). -/
theorem c4_run_deterministic (ord1 ord2 : Nat → List (TrigForm × String))
    (h1 : ∀ n, (ord1 n).Perm triggers) (h2 : ∀ n, (ord2 n).Perm triggers)
    (R : List (String × List Pattern)) (lines : List (List Char)) :
    (runLinesOrd ord1 ⟨R, "GLOBAL", []⟩ lines 1).Errors =
      (runLinesOrd ord2 ⟨R, "GLOBAL", []⟩ lines 1).Errors := by
  rw [runLinesOrd_perm h1 h2]

theorem c4_run_deterministic_witness :
    (∀ n : Nat, ((fun _ => triggers) n : List (TrigForm × String)).Perm triggers) ∧
    (runLinesOrd (fun _ => triggers) ⟨[], "GLOBAL", []⟩ ["hostname R1".data] 1).Errors =
      (runLinesOrd (fun _ => triggers) ⟨[], "GLOBAL", []⟩ ["hostname R1".data] 1).Errors :=
  ⟨fun _ => List.Perm.refl _,
   c4_run_deterministic _ _ (fun _ => List.Perm.refl _) (fun _ => List.Perm.refl _)
     [] ["hostname R1".data]⟩

/-! ### C9: report assembly -/

/-- C9: `GenerateReport` assigns status `"success"` iff the error list is
empty and `"failed"` otherwise, and copies the FSM's error sequence
unchanged into the report. -/
theorem c9_report_status (fsm : FSM) :
    ((GenerateReport fsm).Status = "success" ↔ fsm.Errors = []) ∧
    ((GenerateReport fsm).Status = "failed" ↔ fsm.Errors ≠ []) ∧
    (GenerateReport fsm).Errors = fsm.Errors := by
  cases h : fsm.Errors <;> simp [GenerateReport, h]

/-! ### C10: the stack-replay helper of the PDA validator -/

/-- Modelled from the spec: the `automata.PDA` type of the PDA project
(`NewPDA`, `Push`, `Pop`, `Peek`, `StackSnapshot`) is not under `src/`;
only its caller `NewPDAForStack` (in `cmd/http-validator/main.go`) is.
Per the spec, the stack is an ordered sequence of bracket symbols with
the top the most recently pushed, mutated only by push and pop. -/
structure PDA where
  stack : List Char

/-- Modelled from the spec: a fresh PDA has an empty stack. -/
def NewPDA : PDA := ⟨[]⟩

/-- Modelled from the spec: push a symbol, making it the new top. -/
def PDA.Push (p : PDA) (c : Char) : PDA := ⟨c :: p.stack⟩

/-- Modelled from the spec: pop removes the most recently pushed symbol
(no effect on an empty stack). -/
def PDA.Pop (p : PDA) : PDA := ⟨p.stack.tail⟩

/-- Modelled from the spec: peek observes the top of the stack; an empty
stack has no top (in particular it compares unequal to `'\x7b'`/`'['`). -/
def PDA.Peek (p : PDA) : Option Char := p.stack.head?

/-- Modelled from the spec: a snapshot is a copy of the stack. -/
def PDA.StackSnapshot (p : PDA) : List Char := p.stack

/-- One iteration of `NewPDAForStack`'s token loop (the `switch` on
`t.Token`): push on `{`/`[`, pop on `}`/`]` only when the top matches,
ignore everything else.  Tokens are the Go token strings, as
`List Char`. -/
def pdaStep (p : PDA) (t : List Char) : PDA :=
  if t = ['{'] then p.Push '{'
  else if t = ['['] then p.Push '['
  else if t = ['}'] then (if p.Peek = some '{' then p.Pop else p)
  else if t = [']'] then (if p.Peek = some '[' then p.Pop else p)
  else p

/-- `NewPDAForStack`: replay the open/close tokens through a fresh PDA. -/
def NewPDAForStack (tokens : List (List Char)) : PDA :=
  tokens.foldl pdaStep NewPDA

theorem pdaStep_stack_open {p : PDA} {t : List Char}
    (h : ∀ c ∈ p.stack, c = '{' ∨ c = '[') :
    ∀ c ∈ (pdaStep p t).stack, c = '{' ∨ c = '[' := by
  unfold pdaStep PDA.Push PDA.Pop PDA.Peek
  split_ifs <;> intro c hc
  · rcases List.mem_cons.mp hc with rfl | hc
    · exact Or.inl rfl
    · exact h c hc
  · rcases List.mem_cons.mp hc with rfl | hc
    · exact Or.inr rfl
    · exact h c hc
  · exact h c (List.mem_of_mem_tail hc)
  · exact h c hc
  · exact h c (List.mem_of_mem_tail hc)
  · exact h c hc
  · exact h c hc

theorem foldl_pdaStep_stack_open (tokens : List (List Char)) (p : PDA)
    (h : ∀ c ∈ p.stack, c = '{' ∨ c = '[') :
    ∀ c ∈ (tokens.foldl pdaStep p).stack, c = '{' ∨ c = '[' := by
  induction tokens generalizing p with
  | nil => exact h
  | cons t ts ih => exact ih (pdaStep p t) (pdaStep_stack_open h)

/-- C10: the stack-replay helper skips a close token defensively when the
top does not match (or the stack is empty), leaving the stack unchanged,
and after replaying any token sequence the final stack holds only open
symbols `\x7b` and `[`.  The helper has no error output at all. -/
theorem c10_stack_replay (p : PDA) (tokens : List (List Char)) :
    (p.Peek ≠ some '{' → pdaStep p ['}'] = p) ∧
    (p.Peek ≠ some '[' → pdaStep p [']'] = p) ∧
    (p.stack = [] → pdaStep p ['}'] = p ∧ pdaStep p [']'] = p) ∧
    (∀ c ∈ (NewPDAForStack tokens).stack, c = '{' ∨ c = '[') := by
  refine ⟨fun h => ?_, fun h => ?_, fun h => ?_, ?_⟩
  · simp [pdaStep, h]
  · simp [pdaStep, h]
  · constructor <;> simp [pdaStep, PDA.Peek, h]
  · exact foldl_pdaStep_stack_open tokens NewPDA (by simp [NewPDA])

theorem c10_stack_replay_witness :
    pdaStep ⟨['[']⟩ ['}'] = ⟨['[']⟩ ∧ pdaStep ⟨['{']⟩ [']'] = ⟨['{']⟩ ∧
    (pdaStep ⟨[]⟩ ['}'] = ⟨[]⟩ ∧ pdaStep ⟨[]⟩ [']'] = ⟨[]⟩) ∧
    (∀ c ∈ (NewPDAForStack [['{'], ['['], [']'], ['}'], ['x']]).stack,
      c = '{' ∨ c = '[') :=
  ⟨(c10_stack_replay ⟨['[']⟩ []).1 (by decide),
   (c10_stack_replay ⟨['{']⟩ []).2.1 (by decide),
   (c10_stack_replay ⟨[]⟩ []).2.2.1 rfl,
   (c10_stack_replay ⟨[]⟩ [['{'], ['['], [']'], ['}'], ['x']]).2.2.2⟩

/-! ### C2, C3, C5: per-line transition properties -/

/-- Every trigger-table entry has a nonempty first literal word that does
not start with the comment marker, and a nonempty target state. -/
theorem triggers_sane :
    ∀ t ∈ triggers, t.1.firstWord ≠ [] ∧ t.1.firstWord.head? ≠ some '!' ∧
      t.2 ≠ "" := by decide

/-- A line matched by a trigger pattern is neither blank nor a comment. -/
theorem trig_not_blank {f : TrigForm} {s : List Char}
    (hm : trigMatch f s = true) (h1 : f.firstWord ≠ [])
    (h2 : f.firstWord.head? ≠ some '!') :
    s ≠ [] ∧ ¬ (['!'].isPrefixOf s = true) := by
  obtain ⟨r, hr⟩ := trigMatch_firstWord hm
  rcases hw : f.firstWord with _ | ⟨c, w⟩
  · exact absurd hw h1
  · rw [hw] at hr
    subst hr
    refine ⟨by simp, ?_⟩
    have hc : ('!' : Char) ≠ c := by
      rw [hw] at h2
      intro h
      exact h2 (by simp [h.symm])
    intro hpre
    simp [List.isPrefixOf] at hpre
    exact hc hpre

/-- The trigger search finds the target of any matching table entry. -/
theorem findStateTrigger_of_match {t : TrigForm × String} {s : List Char}
    (ht : t ∈ triggers) (hm : trigMatch t.1 s = true) :
    findStateTrigger s = t.2 := by
  unfold findStateTrigger findStateTriggerList
  rcases h2 : triggers.find? (fun x => trigMatch x.1 s) with _ | u
  · rw [List.find?_eq_none] at h2
    have := h2 t ht
    simp only at this
    exact absurd hm this
  · rw [h2]
    have hu := List.find?_some h2
    simp only at hu
    exact triggerCoherent u (List.mem_of_find?_eq_some h2) t ht s hu hm

/-- C2: a line whose trimmed text matches a trigger pattern records no
error, and afterwards the current state equals the matched trigger's
target. -/
theorem c2_trigger_line (fsm : FSM) (line : List Char) (n : Nat)
    (t : TrigForm × String) (ht : t ∈ triggers)
    (hm : trigMatch t.1 (trimSpace line) = true) :
    (ProcessLine fsm line n).Errors = fsm.Errors ∧
    (ProcessLine fsm line n).CurrentState = t.2 := by
  obtain ⟨hw1, hw2, hw3⟩ := triggers_sane t ht
  obtain ⟨hne, hcomm⟩ := trig_not_blank hm hw1 hw2
  have hfind : findStateTriggerList triggers (trimSpace line) = t.2 :=
    findStateTrigger_of_match ht hm
  have hb : ¬ (trimSpace line = [] ∨ ['!'].isPrefixOf (trimSpace line) = true) := by
    rintro (h | h)
    exacts [hne h, hcomm h]
  simp only [ProcessLine, ProcessLineWith, if_neg hb, hfind, if_pos hw3]
  constructor
  · split_ifs <;> rfl
  · first | rfl | trivial

theorem c2_trigger_line_witness :
    ((.words ["interface".data], "INTERFACE") : TrigForm × String) ∈ NPV.triggers ∧
    trigMatch (.words ["interface".data]) (trimSpace "interface GigabitEthernet0/1".data) = true ∧
    (ProcessLine ⟨[], "GLOBAL", []⟩ "interface GigabitEthernet0/1".data 5).Errors = [] ∧
    (ProcessLine ⟨[], "GLOBAL", []⟩ "interface GigabitEthernet0/1".data 5).CurrentState =
      "INTERFACE" :=
  ⟨by decide, by decide,
   (c2_trigger_line ⟨[], "GLOBAL", []⟩ _ 5 (.words ["interface".data], "INTERFACE")
      (by decide) (by decide)).1,
   (c2_trigger_line ⟨[], "GLOBAL", []⟩ _ 5 (.words ["interface".data], "INTERFACE")
      (by decide) (by decide)).2⟩

/-- C3: on a non-blank non-comment line that is not indented, a sub-state
FSM behaves exactly as if its current state had been reset to GLOBAL
before trigger detection and rule matching. -/
theorem c3_implicit_exit (fsm : FSM) (line : List Char) (n : Nat)
    (hstate : fsm.CurrentState ≠ "GLOBAL")
    (hne : trimSpace line ≠ [])
    (hcomm : ¬ (['!'].isPrefixOf (trimSpace line) = true))
    (hindent : ¬ ([' '].isPrefixOf line = true)) :
    ProcessLine fsm line n = ProcessLine ⟨fsm.Rules, "GLOBAL", fsm.Errors⟩ line n := by
  have hb : ¬ (trimSpace line = [] ∨ ['!'].isPrefixOf (trimSpace line) = true) := by
    rintro (h | h)
    exacts [hne h, hcomm h]
  simp only [ProcessLine, ProcessLineWith, if_neg hb]
  rw [if_pos (show fsm.CurrentState ≠ "GLOBAL" ∧ ¬ ([' '].isPrefixOf line = true) from
        ⟨hstate, hindent⟩),
      if_neg (show ¬ (("GLOBAL" : String) ≠ "GLOBAL" ∧ ¬ ([' '].isPrefixOf line = true))
        from fun h => h.1 rfl)]

theorem c3_implicit_exit_witness :
    ProcessLine ⟨[], "INTERFACE", []⟩ "end".data 3 =
      ProcessLine ⟨[], "GLOBAL", []⟩ "end".data 3 :=
  c3_implicit_exit ⟨[], "INTERFACE", []⟩ "end".data 3
    (by decide) (by decide) (by decide) (by decide)

/-- C5: when the current state has no key in the rule map, a non-blank
non-comment line that triggers no state change and does not implicitly
exit is recorded as an error in that state. -/
theorem c5_unknown_state (fsm : FSM) (line : List Char) (n : Nat)
    (hne : trimSpace line ≠ [])
    (hcomm : ¬ (['!'].isPrefixOf (trimSpace line) = true))
    (hnoexit : fsm.CurrentState = "GLOBAL" ∨ [' '].isPrefixOf line = true)
    (htrig : findStateTrigger (trimSpace line) = "")
    (hlookup : List.lookup fsm.CurrentState fsm.Rules = none) :
    (ProcessLine fsm line n).Errors =
      fsm.Errors ++ [errMsg n (trimSpace line) fsm.CurrentState] := by
  have hb : ¬ (trimSpace line = [] ∨ ['!'].isPrefixOf (trimSpace line) = true) := by
    rintro (h | h)
    exacts [hne h, hcomm h]
  have hexit : ¬ (fsm.CurrentState ≠ "GLOBAL" ∧ ¬ ([' '].isPrefixOf line = true)) := by
    rintro ⟨h1, h2⟩
    rcases hnoexit with h | h
    exacts [h1 h, h2 h]
  unfold findStateTrigger at htrig
  simp only [ProcessLine, ProcessLineWith, if_neg hb, if_neg hexit, htrig,
    ne_eq, not_true_eq_false, if_false, hlookup]
  rfl

theorem c5_unknown_state_witness :
    (ProcessLine ⟨[], "GLOBAL", []⟩ "bogus line".data 2).Errors =
      [] ++ [errMsg 2 "bogus line".data "GLOBAL"] :=
  c5_unknown_state ⟨[], "GLOBAL", []⟩ "bogus line".data 2
    (by decide) (by decide) (Or.inl rfl) (by decide) rfl

/-! ### C7: append-only errors, no aborts -/

theorem runLines_nil (fsm : FSM) (n : Nat) : runLines fsm [] n = fsm := rfl

theorem runLines_cons (fsm : FSM) (l : List Char) (ls : List (List Char)) (n : Nat) :
    runLines fsm (l :: ls) n = runLines (ProcessLine fsm l n) ls (n + 1) := rfl

/-- Every `ProcessLine` call keeps the rule store, and either keeps the
error list or appends exactly the one message `addError` formats for the
state the rule check ran in. -/
theorem processLine_shape (fsm : FSM) (l : List Char) (n : Nat) :
    ∃ st, ProcessLine fsm l n = ⟨fsm.Rules, st, fsm.Errors⟩ ∨
      ProcessLine fsm l n = ⟨fsm.Rules, st, fsm.Errors ++ [errMsg n (trimSpace l) st]⟩ := by
  by_cases h1 : trimSpace l = [] ∨ ['!'].isPrefixOf (trimSpace l) = true
  · exact ⟨"GLOBAL", Or.inl (by simp only [ProcessLine, ProcessLineWith, if_pos h1])⟩
  by_cases he : fsm.CurrentState ≠ "GLOBAL" ∧ ¬ ([' '].isPrefixOf l = true)
  · simp only [ProcessLine, ProcessLineWith, if_neg h1, if_pos he]
    by_cases h2 : findStateTriggerList triggers (trimSpace l) ≠ ""
    · exact ⟨findStateTriggerList triggers (trimSpace l), Or.inl (by rw [if_pos h2])⟩
    · rw [if_neg h2]
      rcases h4 : List.lookup "GLOBAL" fsm.Rules with _ | rules
      · exact ⟨"GLOBAL", Or.inr rfl⟩
      · refine ⟨"GLOBAL", ?_⟩
        by_cases h5 : (rules.any fun rule => rule (trimSpace l)) = true
        · left; simp [h5]
        · right; simp [h5, addError]
  · simp only [ProcessLine, ProcessLineWith, if_neg h1, if_neg he]
    by_cases h2 : findStateTriggerList triggers (trimSpace l) ≠ ""
    · exact ⟨findStateTriggerList triggers (trimSpace l), Or.inl (by rw [if_pos h2])⟩
    · rw [if_neg h2]
      rcases h4 : List.lookup fsm.CurrentState fsm.Rules with _ | rules
      · exact ⟨fsm.CurrentState, Or.inr rfl⟩
      · refine ⟨fsm.CurrentState, ?_⟩
        by_cases h5 : (rules.any fun rule => rule (trimSpace l)) = true
        · left; simp [h5]
        · right; simp [h5, addError]

/-- One `ProcessLine` call leaves the error list unchanged or appends
exactly one message. -/
theorem processLine_errors (fsm : FSM) (l : List Char) (n : Nat) :
    (ProcessLine fsm l n).Errors = fsm.Errors ∨
      ∃ m, (ProcessLine fsm l n).Errors = fsm.Errors ++ [m] := by
  obtain ⟨st, h | h⟩ := processLine_shape fsm l n <;> rw [h]
  · exact Or.inl rfl
  · exact Or.inr ⟨_, rfl⟩

theorem processLine_errors_prefix (fsm : FSM) (l : List Char) (n : Nat) :
    fsm.Errors <+: (ProcessLine fsm l n).Errors ∧
      (ProcessLine fsm l n).Errors.length ≤ fsm.Errors.length + 1 := by
  rcases processLine_errors fsm l n with h | ⟨m, h⟩ <;> rw [h]
  · exact ⟨List.prefix_refl _, Nat.le_succ _⟩
  · exact ⟨⟨[m], rfl⟩, by simp⟩

theorem runLines_errors_prefix (lines : List (List Char)) (fsm : FSM) (n : Nat) :
    fsm.Errors <+: (runLines fsm lines n).Errors ∧
      (runLines fsm lines n).Errors.length ≤ fsm.Errors.length + lines.length := by
  induction lines generalizing fsm n with
  | nil => exact ⟨List.prefix_refl _, Nat.le_refl _⟩
  | cons l ls ih =>
    rw [runLines_cons]
    obtain ⟨hp, hl⟩ := processLine_errors_prefix fsm l n
    obtain ⟨hp2, hl2⟩ := ih (ProcessLine fsm l n) (n + 1)
    refine ⟨hp.trans hp2, ?_⟩
    calc (runLines (ProcessLine fsm l n) ls (n + 1)).Errors.length
        ≤ (ProcessLine fsm l n).Errors.length + ls.length := hl2
      _ ≤ fsm.Errors.length + 1 + ls.length := Nat.add_le_add_right hl _
      _ = fsm.Errors.length + (l :: ls).length := by simp only [List.length_cons]; omega

/-- C7: the error list is append-only (each call appends at most one
message, the previous list is a prefix of the new one) and processing
never aborts: the run over `ls1 ++ ls2` is the run over `ls2` started
from wherever the run over `ls1` ended, however many errors `ls1`
produced. -/
theorem c7_append_only_no_abort :
    (∀ (fsm : FSM) (l : List Char) (n : Nat),
        (ProcessLine fsm l n).Errors = fsm.Errors ∨
          ∃ m, (ProcessLine fsm l n).Errors = fsm.Errors ++ [m]) ∧
    (∀ (fsm : FSM) (lines : List (List Char)) (n : Nat),
        fsm.Errors <+: (runLines fsm lines n).Errors ∧
          (runLines fsm lines n).Errors.length ≤ fsm.Errors.length + lines.length) ∧
    (∀ (fsm : FSM) (ls1 ls2 : List (List Char)) (n : Nat),
        runLines fsm (ls1 ++ ls2) n =
          runLines (runLines fsm ls1 n) ls2 (n + ls1.length)) := by
  refine ⟨processLine_errors, fun fsm lines n => runLines_errors_prefix lines fsm n, ?_⟩
  intro fsm ls1 ls2 n
  induction ls1 generalizing fsm n with
  | nil => rfl
  | cons l ls ih =>
    rw [List.cons_append, runLines_cons, runLines_cons, ih]
    congr 1
    simp only [List.length_cons]
    omega

/-! ### C8: pattern order within a state is irrelevant -/

/-- Pointwise relation between two rule stores: every state has a key in
one iff it has one in the other, and then the two compiled pattern lists
are permutations of each other. -/
def OptPerm : Option (List Pattern) → Option (List Pattern) → Prop
  | none, none => True
  | some a, some b => a.Perm b
  | _, _ => False

theorem anyPerm {α : Type} {l1 l2 : List α} (h : l1.Perm l2) (p : α → Bool) :
    l1.any p = l2.any p := by
  cases h1 : l1.any p <;> cases h2 : l2.any p <;> try rfl
  · rw [List.any_eq_true] at h2
    obtain ⟨x, hx, hpx⟩ := h2
    have h3 : l1.any p = true := List.any_eq_true.mpr ⟨x, h.mem_iff.mpr hx, hpx⟩
    rw [h1] at h3
    exact absurd h3 (by simp)
  · rw [List.any_eq_true] at h1
    obtain ⟨x, hx, hpx⟩ := h1
    have h3 : l2.any p = true := List.any_eq_true.mpr ⟨x, h.mem_iff.mp hx, hpx⟩
    rw [h2] at h3
    exact absurd h3 (by simp)

/-- One `ProcessLine` step is insensitive to the order of each state's
pattern list. -/
theorem processLine_rules_perm {R Rp : List (String × List Pattern)}
    (h : ∀ st, OptPerm (List.lookup st R) (List.lookup st Rp))
    (st : String) (e : List String) (l : List Char) (n : Nat) :
    (ProcessLine ⟨R, st, e⟩ l n).CurrentState = (ProcessLine ⟨Rp, st, e⟩ l n).CurrentState ∧
    (ProcessLine ⟨R, st, e⟩ l n).Errors = (ProcessLine ⟨Rp, st, e⟩ l n).Errors := by
  by_cases h1 : trimSpace l = [] ∨ ['!'].isPrefixOf (trimSpace l) = true
  · simp only [ProcessLine, ProcessLineWith, if_pos h1]
    refine ⟨?_, ?_⟩ <;> trivial
  simp only [ProcessLine, ProcessLineWith, if_neg h1]
  by_cases he : st ≠ "GLOBAL" ∧ ¬ ([' '].isPrefixOf l = true)
  · simp only [if_pos he]
    by_cases h2 : findStateTriggerList triggers (trimSpace l) ≠ ""
    · simp only [if_pos h2]
      refine ⟨?_, ?_⟩ <;> trivial
    · simp only [if_neg h2]
      have hopt := h "GLOBAL"
      rcases o1 : List.lookup "GLOBAL" R with _ | a <;>
        rcases o2 : List.lookup "GLOBAL" Rp with _ | b <;>
        rw [o1, o2] at hopt
      · exact ⟨rfl, rfl⟩
      · exact (hopt : False).elim
      · exact (hopt : False).elim
      · have hany := anyPerm (hopt : a.Perm b) (fun rule => rule (trimSpace l))
        constructor <;> simp only [hany] <;> split_ifs <;> rfl
  · simp only [if_neg he]
    by_cases h2 : findStateTriggerList triggers (trimSpace l) ≠ ""
    · simp only [if_pos h2]
      refine ⟨?_, ?_⟩ <;> trivial
    · simp only [if_neg h2]
      have hopt := h st
      rcases o1 : List.lookup st R with _ | a <;>
        rcases o2 : List.lookup st Rp with _ | b <;>
        rw [o1, o2] at hopt
      · exact ⟨rfl, rfl⟩
      · exact (hopt : False).elim
      · exact (hopt : False).elim
      · have hany := anyPerm (hopt : a.Perm b) (fun rule => rule (trimSpace l))
        constructor <;> simp only [hany] <;> split_ifs <;> rfl

/-- `ProcessLine` never changes the rule store. -/
theorem processLine_preserves_rules (fsm : FSM) (l : List Char) (n : Nat) :
    (ProcessLine fsm l n).Rules = fsm.Rules := by
  obtain ⟨st, h | h⟩ := processLine_shape fsm l n <;> rw [h]

/-- C8: replacing each state's compiled pattern list by any permutation
changes neither whether a given line records an error nor the error
sequence of a whole run (any-match semantics). -/
theorem c8_pattern_order_irrelevant (R Rp : List (String × List Pattern))
    (h : ∀ st, OptPerm (List.lookup st R) (List.lookup st Rp)) :
    (∀ (st : String) (e : List String) (l : List Char) (n : Nat),
        (ProcessLine ⟨R, st, e⟩ l n).Errors = (ProcessLine ⟨Rp, st, e⟩ l n).Errors) ∧
    (∀ (st : String) (e : List String) (lines : List (List Char)) (n : Nat),
        (runLines ⟨R, st, e⟩ lines n).Errors = (runLines ⟨Rp, st, e⟩ lines n).Errors) := by
  refine ⟨fun st e l n => (processLine_rules_perm h st e l n).2, fun st e lines => ?_⟩
  induction lines generalizing st e with
  | nil => intro n; rfl
  | cons l ls ih =>
    intro n
    rw [runLines_cons, runLines_cons]
    rcases hP1 : ProcessLine ⟨R, st, e⟩ l n with ⟨R1, st1, e1⟩
    rcases hP2 : ProcessLine ⟨Rp, st, e⟩ l n with ⟨R2, st2, e2⟩
    have hR1 : R1 = R := by
      have := processLine_preserves_rules ⟨R, st, e⟩ l n
      rw [hP1] at this
      exact this
    have hR2 : R2 = Rp := by
      have := processLine_preserves_rules ⟨Rp, st, e⟩ l n
      rw [hP2] at this
      exact this
    obtain ⟨hst, herr⟩ := processLine_rules_perm h st e l n
    rw [hP1, hP2] at hst herr
    simp only at hst herr
    subst hR1 hR2 hst herr
    exact ih st1 e1 (n + 1)

/-- A concrete pattern used by the C8 witness. -/
def c8patA : Pattern := fun s => s = "alpha".data

/-- A concrete pattern used by the C8 witness. -/
def c8patB : Pattern := fun s => s = "beta".data

theorem c8_pattern_order_irrelevant_witness :
    (runLines ⟨[("GLOBAL", [c8patA, c8patB])], "GLOBAL", []⟩
        ["alpha".data, "gamma".data] 1).Errors =
      (runLines ⟨[("GLOBAL", [c8patB, c8patA])], "GLOBAL", []⟩
        ["alpha".data, "gamma".data] 1).Errors :=
  (c8_pattern_order_irrelevant [("GLOBAL", [c8patA, c8patB])]
      [("GLOBAL", [c8patB, c8patA])]
      (by
        intro st
        by_cases hst : st = "GLOBAL"
        · subst hst
          show OptPerm (some [c8patA, c8patB]) (some [c8patB, c8patA])
          exact List.Perm.swap c8patB c8patA []
        · have hb : (st == "GLOBAL") = false := by
            simp [hst]
          simp only [List.lookup, hb]
          trivial)).2
    "GLOBAL" [] ["alpha".data, "gamma".data] 1

/-! ### C6: all-or-nothing rule compilation -/

/-- The pattern list produced for one state when every pattern of that
state compiles. -/
def compileOk (c : String → Except String Pattern) (ps : List String) : List Pattern :=
  ps.filterMap (fun p => (c p).toOption)

/-- The compiled rule map produced by a fully successful `NewFSM` run:
one entry per state with a nonempty pattern list. -/
def compiledOf (c : String → Except String Pattern)
    (raw : List (String × List String)) : List (String × List Pattern) :=
  (raw.filter (fun sp => !sp.2.isEmpty)).map (fun sp => (sp.1, compileOk c sp.2))

theorem compilePatterns_ok {c : String → Except String Pattern} {state : String}
    {ps : List String} (h : ∀ p ∈ ps, ∃ r, c p = .ok r) :
    compilePatterns c state ps = .ok (compileOk c ps) := by
  induction ps with
  | nil => rfl
  | cons p ps ih =>
    obtain ⟨r, hr⟩ := h p (List.mem_cons_self p ps)
    have hrest := ih (fun q hq => h q (List.mem_cons_of_mem p hq))
    simp only [compilePatterns, hr, hrest, compileOk, List.filterMap_cons,
      Except.toOption]

theorem compilePatterns_ok_forall {c : String → Except String Pattern}
    {state : String} {ps : List String} {l : List Pattern}
    (h : compilePatterns c state ps = .ok l) : ∀ p ∈ ps, ∃ r, c p = .ok r := by
  induction ps generalizing l with
  | nil => intro p hp; cases hp
  | cons p ps ih =>
    intro q hq
    simp only [compilePatterns] at h
    rcases hc : c p with e | r <;> rw [hc] at h
    · exact absurd h (by simp)
    · rcases hrest : compilePatterns c state ps with e2 | l2 <;> rw [hrest] at h
      · exact absurd h (by simp)
      · rcases List.mem_cons.mp hq with rfl | hq2
        · exact ⟨r, hc⟩
        · exact ih hrest q hq2

theorem compilePatterns_err {c : String → Except String Pattern} {state : String}
    {ps : List String} {p0 : String} {e0 : String}
    (hp : p0 ∈ ps) (he : c p0 = .error e0) :
    ∃ p e, p ∈ ps ∧ c p = .error e ∧
      compilePatterns c state ps = .error (compileErrMsg p state e) := by
  induction ps with
  | nil => cases hp
  | cons q ps ih =>
    rcases hc : c q with e | r
    · exact ⟨q, e, List.mem_cons_self q ps, hc, by simp only [compilePatterns, hc]⟩
    · rcases List.mem_cons.mp hp with rfl | hp2
      · rw [hc] at he; exact absurd he (by simp)
      · obtain ⟨p, e, hmem, hce, hres⟩ := ih hp2
        exact ⟨p, e, List.mem_cons_of_mem q hmem, hce,
          by simp only [compilePatterns, hc, hres]⟩

theorem compileRules_ok {c : String → Except String Pattern}
    {raw : List (String × List String)}
    (h : ∀ sp ∈ raw, ∀ p ∈ sp.2, ∃ r, c p = .ok r) :
    compileRules c raw = .ok (compiledOf c raw) := by
  induction raw with
  | nil => rfl
  | cons sp rest ih =>
    obtain ⟨s, ps⟩ := sp
    have hrest := ih (fun q hq p hp => h q (List.mem_cons_of_mem _ hq) p hp)
    cases ps with
    | nil =>
      have hco : compiledOf c ((s, ([] : List String)) :: rest) = compiledOf c rest := by
        simp [compiledOf, List.filter_cons]
      rw [hco]
      simp only [compileRules, compilePatterns]
      exact hrest
    | cons p ps =>
      have hhead : ∀ q ∈ p :: ps, ∃ r, c q = .ok r :=
        fun q hq => h (s, p :: ps) (List.mem_cons_self _ _) q hq
      obtain ⟨r, hr⟩ := hhead p (List.mem_cons_self p ps)
      have hcp : compilePatterns c s (p :: ps) = .ok (compileOk c (p :: ps)) :=
        compilePatterns_ok hhead
      have hne : compileOk c (p :: ps) = r :: compileOk c ps := by
        simp only [compileOk, List.filterMap_cons, hr, Except.toOption]
      have hco : compiledOf c ((s, p :: ps) :: rest) =
          (s, compileOk c (p :: ps)) :: compiledOf c rest := by
        simp [compiledOf, List.filter_cons]
      simp only [compileRules, hcp, hne, hrest, hco]

theorem compileRules_err {c : String → Except String Pattern}
    {raw : List (String × List String)}
    (h : ∃ sp ∈ raw, ∃ p ∈ sp.2, ∃ e, c p = .error e) :
    ∃ s ps p e, (s, ps) ∈ raw ∧ p ∈ ps ∧ c p = .error e ∧
      compileRules c raw = .error (compileErrMsg p s e) := by
  induction raw with
  | nil => obtain ⟨sp, hsp, -⟩ := h; cases hsp
  | cons sp rest ih =>
    obtain ⟨s0, ps0⟩ := sp
    rcases hcp : compilePatterns c s0 ps0 with e1 | l1
    · have hex : ∃ p ∈ ps0, ∃ e, c p = .error e := by
        by_contra hno
        push_neg at hno
        have : ∀ p ∈ ps0, ∃ r, c p = .ok r := by
          intro p hp
          rcases hc : c p with e | r
          · exact absurd hc (hno p hp e)
          · exact ⟨r, rfl⟩
        rw [compilePatterns_ok this] at hcp
        exact absurd hcp (by simp)
      obtain ⟨p0, hp0, e0, he0⟩ := hex
      obtain ⟨p, e, hpmem, hce, hres⟩ := compilePatterns_err hp0 he0
      refine ⟨s0, ps0, p, e, List.mem_cons_self _ _, hpmem, hce, ?_⟩
      rw [compileRules, hres]
    · have hheadok : ∀ p ∈ ps0, ∃ r, c p = .ok r := compilePatterns_ok_forall hcp
      have hrest : ∃ sp ∈ rest, ∃ p ∈ sp.2, ∃ e, c p = .error e := by
        obtain ⟨sp, hsp, p, hp, e, he⟩ := h
        rcases List.mem_cons.mp hsp with rfl | hmem
        · obtain ⟨r, hr⟩ := hheadok p hp
          rw [hr] at he
          exact absurd he (by simp)
        · exact ⟨sp, hmem, p, hp, e, he⟩
      obtain ⟨s, ps, p, e, hsp, hp, hce, hres⟩ := ih hrest
      refine ⟨s, ps, p, e, List.mem_cons_of_mem _ hsp, hp, hce, ?_⟩
      rw [compileRules, hcp]
      cases l1 with
      | nil => exact hres
      | cons r rs => rw [hres]

theorem lookup_compiledOf {c : String → Except String Pattern}
    {raw : List (String × List String)}
    (hnd : (raw.map Prod.fst).Nodup) :
    ∀ sp ∈ raw, sp.2 ≠ [] →
      List.lookup sp.1 (compiledOf c raw) = some (compileOk c sp.2) := by
  induction raw with
  | nil => intro sp hsp; cases hsp
  | cons hd rest ih =>
    obtain ⟨s0, ps0⟩ := hd
    simp only [List.map_cons, List.nodup_cons] at hnd
    intro sp hsp hne
    rcases List.mem_cons.mp hsp with rfl | hmem
    · simp only [compiledOf, List.filter_cons]
      have : (!ps0.isEmpty) = true := by
        cases ps0 with
        | nil => exact absurd rfl hne
        | cons p ps => rfl
      rw [this]
      simp [List.lookup]
    · have hne0 : sp.1 ≠ s0 := by
        intro hcontra
        exact hnd.1 (hcontra ▸ List.mem_map_of_mem Prod.fst hmem)
      have hres := ih hnd.2 sp hmem hne
      simp only [compiledOf, List.filter_cons]
      cases hps0 : !ps0.isEmpty
      · exact hres
      · simp only [List.map_cons, List.lookup]
        have : (sp.1 == s0) = false := by
          simp [hne0]
        rw [this]
        exact hres

/-- C6: rule compilation is all-or-nothing.  If every pattern of every
state compiles, `NewFSM` returns an FSM in state GLOBAL with no errors
whose rule map carries the compiled patterns of every state that has
any; if some pattern fails to compile, `NewFSM` returns an error naming
a failing state and pattern (and hence no FSM). -/
theorem c6_all_or_nothing (c : String → Except String Pattern)
    (raw : List (String × List String)) :
    ((∀ sp ∈ raw, ∀ p ∈ sp.2, ∃ r, c p = .ok r) →
        NewFSM c raw = .ok ⟨compiledOf c raw, "GLOBAL", []⟩ ∧
        ((raw.map Prod.fst).Nodup → ∀ sp ∈ raw, sp.2 ≠ [] →
          List.lookup sp.1 (compiledOf c raw) = some (compileOk c sp.2))) ∧
    ((∃ sp ∈ raw, ∃ p ∈ sp.2, ∃ e, c p = .error e) →
        ∃ s ps p e, (s, ps) ∈ raw ∧ p ∈ ps ∧ c p = .error e ∧
          NewFSM c raw = .error (compileErrMsg p s e)) := by
  constructor
  · intro hok
    refine ⟨?_, fun hnd => lookup_compiledOf hnd⟩
    unfold NewFSM
    rw [compileRules_ok hok]
  · intro hbad
    obtain ⟨s, ps, p, e, hsp, hp, hce, hres⟩ := compileRules_err hbad
    refine ⟨s, ps, p, e, hsp, hp, hce, ?_⟩
    unfold NewFSM
    rw [hres]

/-- A toy compiler for the C6 witness: the single pattern `(` fails to
compile, everything else becomes a match-nothing pattern. -/
def c6compile : String → Except String Pattern :=
  fun p => if p = "(" then .error "missing closing )" else .ok (fun _ => false)

theorem c6_all_or_nothing_witness :
    (NewFSM c6compile [("GLOBAL", ["hostname"])] =
        .ok ⟨compiledOf c6compile [("GLOBAL", ["hostname"])], "GLOBAL", []⟩) ∧
    (∃ s ps p e, (s, ps) ∈ [("BAD", ["("])] ∧ p ∈ ps ∧ c6compile p = .error e ∧
        NewFSM c6compile [("BAD", ["("])] = .error (compileErrMsg p s e)) :=
  ⟨((c6_all_or_nothing c6compile [("GLOBAL", ["hostname"])]).1
      (by
        intro sp hsp p hp
        simp only [List.mem_singleton] at hsp
        subst hsp
        simp only [List.mem_singleton] at hp
        subst hp
        exact ⟨fun _ => false, rfl⟩)).1,
   (c6_all_or_nothing c6compile [("BAD", ["("])]).2
      ⟨("BAD", ["("]), List.mem_singleton.mpr rfl, "(",
        List.mem_singleton.mpr rfl, "missing closing )", rfl⟩⟩

end NPV
